import Mathlib

/-!
Verification of the PII filtering engine (`src/utils/pii-filter.js`) of the
`agentic-pm-tooling` repository.  The JavaScript class `PIIFilter` is shallowly
embedded: the mutable instance (`this`) becomes an explicit `PIIFilter` record
threaded through every operation, JavaScript's regex `String.replace` calls
become executable scanners over `List Char`, and JSON values become the
inductive `JsValue`.  All definitions are structurally recursive (fuel-based
where the source recursion is not structural) so concrete runs reduce by
`decide`/`rfl`.
-/

namespace PII

/-- The four replacement counters of a filter instance (`this.counters`). -/
structure Counters where
  email : Nat
  name : Nat
  phone : Nat
  company : Nat
deriving Repr, DecidableEq

/-- A `PIIFilter` instance: master switch, the three category toggles and the
counters (constructor, `pii-filter.js` lines 11-24). -/
structure PIIFilter where
  enabled : Bool
  anonymizeEmails : Bool
  anonymizeNames : Bool
  anonymizePhone : Bool
  counters : Counters
deriving Repr, DecidableEq

/-- A freshly constructed filter with default (all-on) environment flags and
zeroed counters. -/
def defaultFilter : PIIFilter :=
  { enabled := true, anonymizeEmails := true, anonymizeNames := true,
    anonymizePhone := true, counters := ⟨0, 0, 0, 0⟩ }

def incEmail (σ : PIIFilter) : PIIFilter :=
  { σ with counters := { σ.counters with email := σ.counters.email + 1 } }

def incName (σ : PIIFilter) : PIIFilter :=
  { σ with counters := { σ.counters with name := σ.counters.name + 1 } }

def incPhone (σ : PIIFilter) : PIIFilter :=
  { σ with counters := { σ.counters with phone := σ.counters.phone + 1 } }

def incCompany (σ : PIIFilter) : PIIFilter :=
  { σ with counters := { σ.counters with company := σ.counters.company + 1 } }

/-- `resetCounters` (`pii-filter.js` lines 197-204): replace `this.counters`
with a fresh all-zero record. -/
def resetCounters (σ : PIIFilter) : PIIFilter :=
  { σ with counters := ⟨0, 0, 0, 0⟩ }

/-- `getStats` (`pii-filter.js` lines 209-214). -/
def getStats (σ : PIIFilter) : Bool × Counters :=
  (σ.enabled, σ.counters)

/-- JSON-like runtime values handled by `filterObject`. -/
inductive JsValue where
  | null : JsValue
  | bool : Bool → JsValue
  | num : Int → JsValue
  | str : String → JsValue
  | arr : List JsValue → JsValue
  | obj : List (String × JsValue) → JsValue
deriving Repr

/-- JavaScript falsiness of a `JsValue` (`!obj` / `!text` guards in the
source; objects and arrays are always truthy, `null`, `false`, `0` and the
empty string are falsy). -/
def jsFalsy : JsValue → Bool
  | .null => true
  | .bool b => !b
  | .num n => n == 0
  | .str s => s == ""
  | .arr _ => false
  | .obj _ => false

/-- ASCII rendering of JavaScript's `toLowerCase` as used on field keys and
company names (all inputs of interest are ASCII). -/
def jsToLower (s : String) : String :=
  String.mk (s.data.map Char.toLower)

/-- `pre` is a prefix of `s` (character lists). -/
def startsWithList : List Char → List Char → Bool
  | [], _ => true
  | _ :: _, [] => false
  | p :: ps, c :: cs => p == c && startsWithList ps cs

/-- `sub` occurs somewhere inside `s` (character lists). -/
def containsList (sub : List Char) : List Char → Bool
  | [] => startsWithList sub []
  | c :: cs => startsWithList sub (c :: cs) || containsList sub cs

/-- JavaScript's `String.prototype.includes`. -/
def jsIncludes (s sub : String) : Bool :=
  containsList sub.data s.data

/-- `anonymizeName` on a string argument (`pii-filter.js` lines 109-114). -/
def anonymizeName (name : String) (σ : PIIFilter) : String × PIIFilter :=
  if !σ.enabled || !σ.anonymizeNames || name == "" then (name, σ)
  else ("Participant " ++ toString (σ.counters.name + 1), incName σ)

/-- The three-way classification of `anonymizeCompany` (`pii-filter.js`
lines 124-130) for a truthy company string, given the already incremented
company counter `n`. -/
def companyLabel (company : String) (n : Nat) : String :=
  if jsIncludes (jsToLower company) "enterprise" || jsIncludes (jsToLower company) "corp" then
    "Enterprise Client " ++ toString n
  else if jsIncludes (jsToLower company) "startup" then
    "Startup Client " ++ toString n
  else
    "Company " ++ toString n

/-- `anonymizeCompany` on a string argument (`pii-filter.js` lines 119-131). -/
def anonymizeCompany (company : String) (σ : PIIFilter) : String × PIIFilter :=
  if !σ.enabled || company == "" then (company, σ)
  else (companyLabel company (σ.counters.company + 1), incCompany σ)

/-- `anonymizeName` at an arbitrary runtime value: falsy inputs (in
particular `null`) are returned unchanged; a truthy argument is never
inspected, so the operation is total (`pii-filter.js` lines 109-114). -/
def anonymizeNameValue (v : JsValue) (σ : PIIFilter) : JsValue × PIIFilter :=
  if !σ.enabled || !σ.anonymizeNames || jsFalsy v then (v, σ)
  else (.str ("Participant " ++ toString (σ.counters.name + 1)), incName σ)

/-- `anonymizeCompany` at an arbitrary runtime value.  Falsy inputs are
returned unchanged.  On a truthy non-string the source increments the
counter and then raises `TypeError` at `company.toLowerCase()`; the error
value carries the mutated instance. -/
def anonymizeCompanyValue (v : JsValue) (σ : PIIFilter) :
    Except PIIFilter (JsValue × PIIFilter) :=
  if !σ.enabled || jsFalsy v then .ok (v, σ)
  else
    match v with
    | .str s => .ok (.str (companyLabel s (σ.counters.company + 1)), incCompany σ)
    | _ => .error (incCompany σ)

/-! ## Regex scanning machinery

JavaScript's `str.replace(re, fn)` with a global regex scans the input left to
right: at each position it attempts a match; on success the matched span is
handed to the callback and scanning resumes after the span, otherwise the
character is copied and scanning advances by one.  A matcher takes the
character preceding the current position (for `\b` word-boundary tests) and
the remaining input, and returns the length of the match at this exact
position, if any.  All matchers below return lengths of at least 1. -/

/-- One fragment of a scanned string: a literal (non-matching) character or a
matched span. -/
inductive Piece where
  | lit : Char → Piece
  | mat : List Char → Piece
deriving Repr, DecidableEq

/-- JavaScript `\w`: `[A-Za-z0-9_]`. -/
def isWordChar (c : Char) : Bool :=
  c.isAlpha || c.isDigit || c == '_'

def wordOpt : Option Char → Bool
  | none => false
  | some c => isWordChar c

/-- JavaScript `\b` between the character `prev` (if any) and the character
`cur` (if any): exactly one side is a word character. -/
def boundaryAt (prev cur : Option Char) : Bool :=
  wordOpt prev != wordOpt cur

/-- Fueled scanner: split the input into literal characters and matched
spans.  The fuel only serves structural recursion; `scanPieces` supplies the
input length, which always suffices because every match consumes at least one
character. -/
def scanPiecesF (M : Option Char → List Char → Option Nat) :
    Nat → Option Char → List Char → List Piece
  | 0, _, s => s.map Piece.lit
  | _ + 1, _, [] => []
  | fuel + 1, prev, c :: cs =>
    match M prev (c :: cs) with
    | some n =>
      Piece.mat ((c :: cs).take (max n 1)) ::
        scanPiecesF M fuel (((c :: cs).take (max n 1)).getLast?) ((c :: cs).drop (max n 1))
    | none => Piece.lit c :: scanPiecesF M fuel (some c) cs

/-- Decompose `s` into the pieces of one global-replace pass of matcher `M`,
starting with preceding character `prev`. -/
def scanPieces (M : Option Char → List Char → Option Nat)
    (prev : Option Char) (s : List Char) : List Piece :=
  scanPiecesF M s.length prev s

/-- Reassemble pieces, feeding each matched span to the (stateful)
replacement callback in scan order. -/
def renderPieces {α : Type} (repl : List Char → α → List Char × α) :
    List Piece → α → List Char × α
  | [], st => ([], st)
  | .lit c :: ps, st =>
    let (out, st') := renderPieces repl ps st
    (c :: out, st')
  | .mat m :: ps, st =>
    let (r, st1) := repl m st
    let (out, st2) := renderPieces repl ps st1
    (r ++ out, st2)

/-- Reassemble pieces with a pure replacement (used by the URL scrubbing
passes, which touch no counter). -/
def renderPure (repl : List Char → List Char) : List Piece → List Char
  | [] => []
  | .lit c :: ps => c :: renderPure repl ps
  | .mat m :: ps => repl m ++ renderPure repl ps

/-! ## The email matcher

`/\b[A-Za-z0-9._%+-]+@[A-Za-z0-9.-]+\.[A-Z|a-z]{2,}\b/g`
(`pii-filter.js` line 52).  The greedy domain run backtracks to find a
literal dot, and the greedy TLD repetition `{2,}` backtracks to satisfy the
closing word boundary, exactly as the backtracking regex engine does.  Note
that the TLD class `[A-Z|a-z]` contains the literal `|`. -/

def isLocalChar (c : Char) : Bool :=
  c.isAlpha || c.isDigit || c == '.' || c == '_' || c == '%' || c == '+' || c == '-'

def isDomainChar (c : Char) : Bool :=
  c.isAlpha || c.isDigit || c == '.' || c == '-'

def isTldChar (c : Char) : Bool :=
  c.isAlpha || c == '|'

/-- Try TLD lengths `n, n-1, …, 2` (greedy `{2,}` with backtracking): `t` is
the maximal run of TLD characters after the dot and `after` the character
following that run.  Succeeds at the first length whose end sits on a word
boundary. -/
def emailTldSearch (t : List Char) (after : Option Char) : Nat → Option Nat
  | 0 => none
  | 1 => none
  | k + 2 =>
    if k + 2 ≤ t.length then
      let nextC := if k + 2 < t.length then t.get? (k + 2) else after
      if boundaryAt (t.get? (k + 1)) nextC then some (k + 2)
      else emailTldSearch t after (k + 1)
    else emailTldSearch t after (k + 1)

/-- Try domain-prefix lengths `j, j-1, …, 1` (greedy `[A-Za-z0-9.-]+` with
backtracking) over the text following the `@`.  A prefix length is viable
when the next character is the literal dot; then the TLD search runs on the
maximal TLD run after that dot.  Returns the length matched after the `@`. -/
def emailDomainSearch (afterAt : List Char) : Nat → Option Nat
  | 0 => none
  | j + 1 =>
    if afterAt.get? (j + 1) = some '.' then
      let t := (afterAt.drop (j + 2)).takeWhile isTldChar
      let afterRun := ((afterAt.drop (j + 2)).drop t.length).head?
      match emailTldSearch t afterRun t.length with
      | some k => some (j + 2 + k)
      | none => emailDomainSearch afterAt j
    else emailDomainSearch afterAt j

/-- Match the email regex at the current position.  The local part needs no
backtracking: `@` is not in the local character class, so the greedy run
either stops at an `@` or the position fails. -/
def matchEmail (prev : Option Char) (s : List Char) : Option Nat :=
  match s with
  | [] => none
  | c :: _ =>
    if boundaryAt prev (some c) then
      let loc := s.takeWhile isLocalChar
      if loc.length = 0 then none
      else
        match s.drop loc.length with
        | '@' :: afterAt =>
          let dom := afterAt.takeWhile isDomainChar
          match emailDomainSearch afterAt (dom.length - 1) with
          | some k => some (loc.length + 1 + k)
          | none => none
        | _ => none
    else none

/-! ## The phone matchers (`pii-filter.js` lines 66-73) -/

/-- ASCII approximation of JavaScript `\s`. -/
def isSpaceChar (c : Char) : Bool :=
  c == ' ' || c == '\t' || c == '\n' || c == '\r' || c == '\x0b' || c == '\x0c'

/-- The class `[-.\s]`. -/
def isSepChar (c : Char) : Bool :=
  c == '-' || c == '.' || isSpaceChar c

/-- Consume exactly `n` digits, returning the rest. -/
def takeDigits : Nat → List Char → Option (List Char)
  | 0, s => some s
  | _ + 1, [] => none
  | n + 1, c :: cs => if c.isDigit then takeDigits n cs else none

/-- `/\b\(?\d{3}\)?[-.\s]\d{3}[-.\s]\d{4}\b/`.  The optional parentheses are
deterministic: if present they must be consumed, because a digit class cannot
match them on backtracking.  The trailing `\b` follows a digit (a word
character), so it holds exactly when the next character is not a word
character. -/
def matchPhone1 (prev : Option Char) (s : List Char) : Option Nat :=
  match s with
  | [] => none
  | c :: _ =>
    if boundaryAt prev (some c) then
      let p1 : Nat := if c == '(' then 1 else 0
      let s1 := if c == '(' then s.drop 1 else s
      match takeDigits 3 s1 with
      | none => none
      | some s2 =>
        let p2 : Nat := if s2.head? = some ')' then 1 else 0
        let s3 := if s2.head? = some ')' then s2.tail else s2
        match s3 with
        | [] => none
        | d1 :: s4 =>
          if isSepChar d1 then
            match takeDigits 3 s4 with
            | none => none
            | some s5 =>
              match s5 with
              | [] => none
              | d2 :: s6 =>
                if isSepChar d2 then
                  match takeDigits 4 s6 with
                  | none => none
                  | some s7 =>
                    if wordOpt s7.head? then none
                    else some (p1 + 3 + p2 + 1 + 3 + 1 + 4)
                else none
          else none
    else none

/-- One bounded digit group followed by a single `\s`, with the greedy
backtracking of `\d{lo,hi}`: lengths are tried from `hi` down to `lo`.  (At
most one length can succeed, since a shorter group leaves a digit where the
`\s` must match.)  Returns the number of characters consumed and the rest. -/
def digitGroupSpace (lo : Nat) : Nat → List Char → Option (Nat × List Char)
  | 0, _ => none
  | k + 1, s =>
    if k + 1 < lo then none
    else
      match takeDigits (k + 1) s with
      | some (sp :: rest) =>
        if isSpaceChar sp then some (k + 2, rest) else digitGroupSpace lo k s
      | _ => digitGroupSpace lo k s

/-- `/\b\+\d{1,3}\s\d{2,4}\s\d{3,4}\s\d{4}\b/`. -/
def matchPhone2 (prev : Option Char) (s : List Char) : Option Nat :=
  match s with
  | [] => none
  | c :: cs =>
    if boundaryAt prev (some c) && c == '+' then
      match digitGroupSpace 1 3 cs with
      | none => none
      | some (g1, r1) =>
        match digitGroupSpace 2 4 r1 with
        | none => none
        | some (g2, r2) =>
          match digitGroupSpace 3 4 r2 with
          | none => none
          | some (g3, r3) =>
            match takeDigits 4 r3 with
            | none => none
            | some r4 =>
              if wordOpt r4.head? then none
              else some (1 + g1 + g2 + g3 + 4)
    else none

/-- `/\b\d{3}\.\d{3}\.\d{4}\b/`. -/
def matchPhone3 (prev : Option Char) (s : List Char) : Option Nat :=
  match s with
  | [] => none
  | c :: _ =>
    if boundaryAt prev (some c) then
      match takeDigits 3 s with
      | none => none
      | some s1 =>
        match s1 with
        | '.' :: s2 =>
          match takeDigits 3 s2 with
          | none => none
          | some s3 =>
            match s3 with
            | '.' :: s4 =>
              match takeDigits 4 s4 with
              | none => none
              | some s5 =>
                if wordOpt s5.head? then none
                else some (3 + 1 + 3 + 1 + 4)
            | _ => none
        | _ => none
    else none

/-! ## Replacement callbacks and the text-filtering operations -/

def emailTok (n : Nat) : List Char :=
  ("[EMAIL_" ++ toString n ++ "]").data

def phoneTok (n : Nat) : List Char :=
  ("[PHONE_" ++ toString n ++ "]").data

/-- The email replacement callback (`pii-filter.js` lines 53-56): bump the
shared email counter and emit the numbered token. -/
def emailRepl (_ : List Char) (σ : PIIFilter) : List Char × PIIFilter :=
  (emailTok (σ.counters.email + 1), incEmail σ)

/-- A hexadecimal letter (either case) or a colon — the disambiguation guard
of `pii-filter.js` line 80. -/
def hexOrColon (c : Char) : Bool :=
  ('a' ≤ c && c ≤ 'f') || ('A' ≤ c && c ≤ 'F') || c == ':'

/-- The phone replacement callback (`pii-filter.js` lines 77-85): a match
containing a hexadecimal letter or a colon is returned unchanged with no
counter movement, otherwise the shared phone counter is bumped and the
numbered token emitted. -/
def phoneRepl (m : List Char) (σ : PIIFilter) : List Char × PIIFilter :=
  if m.any hexOrColon then (m, σ)
  else (phoneTok (σ.counters.phone + 1), incPhone σ)

/-- `filterEmails` (`pii-filter.js` lines 51-57). -/
def filterEmails (text : String) (σ : PIIFilter) : String × PIIFilter :=
  let (out, σ') := renderPieces emailRepl (scanPieces matchEmail none text.data) σ
  (String.mk out, σ')

/-- `filterPhoneNumbers` (`pii-filter.js` lines 63-89): the three patterns
run in sequence, each over the output of the previous pass. -/
def filterPhoneNumbers (text : String) (σ : PIIFilter) : String × PIIFilter :=
  let (t1, σ1) := renderPieces phoneRepl (scanPieces matchPhone1 none text.data) σ
  let (t2, σ2) := renderPieces phoneRepl (scanPieces matchPhone2 none t1) σ1
  let (t3, σ3) := renderPieces phoneRepl (scanPieces matchPhone3 none t2) σ2
  (String.mk t3, σ3)

/-- The class `[^&\s]` of parameter-value characters. -/
def isValChar (c : Char) : Bool :=
  !(c == '&') && !isSpaceChar c

/-- Match `([?&]name=)[^&\s]+` for one of the given parameter names (tried in
alternation order; the names are mutually prefix-free, so the order does not
change the result). -/
def matchParamName (cs : List Char) : List String → Option Nat
  | [] => none
  | nm :: rest =>
    let lit := nm.data ++ ['=']
    if startsWithList lit cs then
      let v := (cs.drop lit.length).takeWhile isValChar
      if v.length = 0 then none else some (1 + lit.length + v.length)
    else matchParamName cs rest

/-- `/([?&]email=)[^&\s]+/g` (`pii-filter.js` line 96). -/
def matchUrlEmail (_ : Option Char) (s : List Char) : Option Nat :=
  match s with
  | [] => none
  | c :: cs =>
    if c == '?' || c == '&' then matchParamName cs ["email"] else none

/-- `/([?&](?:user_id|userId|uid)=)[^&\s]+/g` (`pii-filter.js` line 100). -/
def matchUrlUser (_ : Option Char) (s : List Char) : Option Nat :=
  match s with
  | [] => none
  | c :: cs =>
    if c == '?' || c == '&' then matchParamName cs ["user_id", "userId", "uid"] else none

/-- The `'$1[REDACTED]'` replacement: group 1 is the delimiter, the parameter
name and the `=`; the parameter names contain no `=`, so group 1 is the match
up to and including its first `=`. -/
def urlRepl (m : List Char) : List Char :=
  m.takeWhile (fun c => !(c == '=')) ++ ("=[REDACTED]".data)

/-- `filterSensitiveUrls` (`pii-filter.js` lines 94-104): two pure replace
passes, no counter involvement. -/
def filterSensitiveUrls (text : String) : String :=
  let t1 := renderPure urlRepl (scanPieces matchUrlEmail none text.data)
  let t2 := renderPure urlRepl (scanPieces matchUrlUser none t1)
  String.mk t2

/-- `filterText` on a string (`pii-filter.js` lines 29-46): identity when the
filter is disabled or the text falsy; otherwise the email pass (if enabled),
the phone passes (if enabled), then always the URL-parameter scrubbing. -/
def filterText (text : String) (σ : PIIFilter) : String × PIIFilter :=
  if !σ.enabled || text == "" then (text, σ)
  else
    let (t1, σ1) := if σ.anonymizeEmails then filterEmails text σ else (text, σ)
    let (t2, σ2) := if σ1.anonymizePhone then filterPhoneNumbers t1 σ1 else (t1, σ1)
    (filterSensitiveUrls t2, σ2)

/-- `filterText` at an arbitrary runtime value: falsy inputs (in particular
`null`) and any input with the filter disabled are returned unchanged; a
truthy non-string reaches a `.replace` call and raises `TypeError` before any
counter moves. -/
def filterTextValue (v : JsValue) (σ : PIIFilter) :
    Except PIIFilter (JsValue × PIIFilter) :=
  if !σ.enabled || jsFalsy v then .ok (v, σ)
  else
    match v with
    | .str s => .ok ((.str (filterText s σ).1 : JsValue), (filterText s σ).2)
    | _ => .error σ

/-! ## The recursive object filter (`pii-filter.js` lines 136-192) -/

/-- A caller-supplied field rule: receives the string value and the live
filter instance, returns a replacement value (and the possibly mutated
instance). -/
def FieldRule := String → PIIFilter → JsValue × PIIFilter

/-- The caller-supplied field-rule table, matched by exact key. -/
def FieldRules := List (String × FieldRule)

/-- `fieldRules[key]`: exact, case-sensitive lookup. -/
def findRule : FieldRules → String → Option FieldRule
  | [], _ => none
  | (k', f) :: rest, k => if k' == k then some f else findRule rest k

/-- The built-in safe-field allowlist (`pii-filter.js` lines 153-158). -/
def safeFields : List String :=
  ["id", "uuid", "guid", "self", "html", "url", "href", "link",
   "createdat", "updatedat", "deletedat", "timestamp", "date",
   "type", "status", "state", "role", "archived", "granularity",
   "startdate", "enddate", "timeframe", "code", "key"]

def emailFieldNames : List String := ["email", "email_address", "user_email"]

def phoneFieldNames : List String := ["phone", "phone_number", "mobile"]

def nameFieldNames : List String :=
  ["name", "full_name", "display_name", "user_name", "customer_name"]

def companyFieldNames : List String := ["company", "company_name", "organization"]

/-- The string-valued-field dispatch of `filterObject` (`pii-filter.js`
lines 151-185): safe-field passthrough, then the caller rule, then the
built-in key-name heuristics, then fallback text filtering. -/
def filterStringField (rules : FieldRules) (k : String) (s : String)
    (σ : PIIFilter) : JsValue × PIIFilter :=
  if safeFields.contains (jsToLower k) then (.str s, σ)
  else
    match findRule rules k with
    | some rule => rule s σ
    | none =>
      if emailFieldNames.contains (jsToLower k) then
        (.str (String.mk (emailTok (σ.counters.email + 1))), incEmail σ)
      else if phoneFieldNames.contains (jsToLower k) then
        (.str (String.mk (phoneTok (σ.counters.phone + 1))), incPhone σ)
      else if nameFieldNames.contains (jsToLower k) then
        let (r, σ') := anonymizeName s σ
        (.str r, σ')
      else if companyFieldNames.contains (jsToLower k) then
        let (r, σ') := anonymizeCompany s σ
        (.str r, σ')
      else
        let (r, σ') := filterText s σ
        (.str r, σ')

/-- The per-entry dispatch of the `for (const key in obj)` loop
(`pii-filter.js` lines 141-188), abstracted over the recursive call used for
nested objects and arrays: non-null objects and arrays recurse, strings go
through `filterStringField`, every other value passes through unchanged. -/
def filterEntryWith (rules : FieldRules)
    (recurse : JsValue → PIIFilter → JsValue × PIIFilter)
    (k : String) (v : JsValue) (σ : PIIFilter) : JsValue × PIIFilter :=
  match v with
  | .obj _ => recurse v σ
  | .arr _ => recurse v σ
  | .str s => filterStringField rules k s σ
  | _ => (v, σ)

/-- Process the character-index entries of a truthy string input: every
value is a single-character string, so the loop body takes the
string-branch with no recursion. -/
def filterCharFields (rules : FieldRules) :
    Nat → List Char → PIIFilter → List (String × JsValue) × PIIFilter
  | _, [], σ => ([], σ)
  | i, c :: cs, σ =>
    let (v', σ1) := filterStringField rules (toString i) (String.mk [c]) σ
    let (rest', σ2) := filterCharFields rules (i + 1) cs σ1
    ((toString i, v') :: rest', σ2)

mutual

/-- `filterObject(obj, fieldRules)` (`pii-filter.js` lines 136-192).
Disabled filter or falsy input returns the input itself; an array builds a
new array from its index entries, an object a new object from its fields; a
truthy string enumerates its character indices (JavaScript `for..in`) into a
new object, and a truthy number or boolean has no enumerable properties, so
a fresh empty object results. -/
def filterObject (rules : FieldRules) : JsValue → PIIFilter → JsValue × PIIFilter
  | v, σ =>
    if !σ.enabled || jsFalsy v then (v, σ)
    else
      match v with
      | .obj fields =>
        let (fs, σ') := filterFields rules fields σ
        (.obj fs, σ')
      | .arr items =>
        let (xs, σ') := filterItems rules 0 items σ
        (.arr xs, σ')
      | .str s =>
        let (fs, σ') := filterCharFields rules 0 s.data σ
        (.obj fs, σ')
      | _ => (.obj [], σ)

/-- The `for (const key in obj)` loop over an object's fields
(`pii-filter.js` lines 141-189), threading the filter state left to right:
non-null objects and arrays recurse via `filterObject` with the same rule
table, strings take the string-branch dispatch, anything else passes
through. -/
def filterFields (rules : FieldRules) :
    List (String × JsValue) → PIIFilter → List (String × JsValue) × PIIFilter
  | [], σ => ([], σ)
  | (k, v) :: rest, σ =>
    let (v', σ1) :=
      match v with
      | .obj _ => filterObject rules v σ
      | .arr _ => filterObject rules v σ
      | .str s => filterStringField rules k s σ
      | _ => (v, σ)
    let (rest', σ2) := filterFields rules rest σ1
    ((k, v') :: rest', σ2)

/-- The same loop over an array's items; `for..in` presents the index as a
string key. -/
def filterItems (rules : FieldRules) :
    Nat → List JsValue → PIIFilter → List JsValue × PIIFilter
  | _, [], σ => ([], σ)
  | i, v :: rest, σ =>
    let (v', σ1) :=
      match v with
      | .obj _ => filterObject rules v σ
      | .arr _ => filterObject rules v σ
      | .str s => filterStringField rules (toString i) s σ
      | _ => (v, σ)
    let (rest', σ2) := filterItems rules (i + 1) rest σ1
    (v' :: rest', σ2)

end

/-- The loop body of `filterObject` for one `(key, value)` entry
(`pii-filter.js` lines 141-188), as a standalone function: nested objects
and arrays recurse into `filterObject` with the same rule table, strings go
through `filterStringField`, every other value is passed through
unchanged. -/
def filterEntry (rules : FieldRules) (k : String) (v : JsValue) (σ : PIIFilter) :
    JsValue × PIIFilter :=
  filterEntryWith rules (filterObject rules) k v σ

/-! ## Specification-side helper functions used to state the theorems -/

/-- The number of matched spans in a piece list. -/
def matCount : List Piece → Nat
  | [] => 0
  | .lit _ :: ps => matCount ps
  | .mat _ :: ps => matCount ps + 1

/-- Reassembly in which the `j`-th matched span (1-indexed) is replaced by
`tok (base + j)`: the replacements are numbered consecutively from
`base + 1`. -/
def numberedRender (tok : Nat → List Char) (base : Nat) : List Piece → List Char
  | [] => []
  | .lit c :: ps => c :: numberedRender tok base ps
  | .mat _ :: ps => tok (base + 1) ++ numberedRender tok (base + 1) ps

/-- Reassembly under the phone disambiguation guard: a span containing a
hexadecimal letter or a colon stays verbatim and consumes no number, every
other span is replaced by the next consecutively numbered phone token. -/
def guardedRender (base : Nat) : List Piece → List Char
  | [] => []
  | .lit c :: ps => c :: guardedRender base ps
  | .mat m :: ps =>
    if m.any hexOrColon then m ++ guardedRender base ps
    else phoneTok (base + 1) ++ guardedRender (base + 1) ps

/-- The number of matched spans that pass the phone disambiguation guard. -/
def acceptedCount : List Piece → Nat
  | [] => 0
  | .lit _ :: ps => acceptedCount ps
  | .mat m :: ps => (if m.any hexOrColon then 0 else 1) + acceptedCount ps

/-- How many email matches one email pass finds in `s`. -/
def emailMatchCount (s : String) : Nat :=
  matCount (scanPieces matchEmail none s.data)

/-- Run `filterText` over a batch of strings on one filter instance,
collecting the outputs and the final state. -/
def runFilterTexts : List String → PIIFilter → List String × PIIFilter
  | [], σ => ([], σ)
  | t :: ts, σ =>
    let (r, σ1) := filterText t σ
    let (rs, σ2) := runFilterTexts ts σ1
    (r :: rs, σ2)

/-- Run `anonymizeName` over a batch of strings on one filter instance. -/
def runAnonymizeNames : List String → PIIFilter → List String × PIIFilter
  | [], σ => ([], σ)
  | n :: ns, σ =>
    let (r, σ1) := anonymizeName n σ
    let (rs, σ2) := runAnonymizeNames ns σ1
    (r :: rs, σ2)

/-! ## General lemmas -/

/-- Replacing email matches renders the `j`-th match as the token numbered
`σ.counters.email + j` and advances the email counter by the number of
matches, leaving the rest of the state untouched. -/
theorem renderPieces_emailRepl (ps : List Piece) (σ : PIIFilter) :
    renderPieces emailRepl ps σ =
      (numberedRender emailTok σ.counters.email ps,
       { σ with counters := { σ.counters with email := σ.counters.email + matCount ps } }) := by
  induction ps generalizing σ with
  | nil =>
    obtain ⟨en, ae, an, ap, ce, cn, cp, cc⟩ := σ
    simp [renderPieces, numberedRender, matCount]
  | cons p ps ih =>
    cases p with
    | lit c =>
      simp only [renderPieces, numberedRender, matCount, ih]
    | mat m =>
      obtain ⟨en, ae, an, ap, ce, cn, cp, cc⟩ := σ
      simp only [renderPieces, numberedRender, matCount, emailRepl, incEmail, ih]
      have h1 : ce + 1 + matCount ps = ce + (matCount ps + 1) := by omega
      rw [h1]

/-- Replacing phone matches renders guarded (hex-letter or colon) spans
verbatim and the `j`-th accepted span as the token numbered
`σ.counters.phone + j`, advancing the phone counter by the number of
accepted spans and leaving the rest of the state untouched. -/
theorem renderPieces_phoneRepl (ps : List Piece) (σ : PIIFilter) :
    renderPieces phoneRepl ps σ =
      (guardedRender σ.counters.phone ps,
       { σ with counters := { σ.counters with phone := σ.counters.phone + acceptedCount ps } }) := by
  induction ps generalizing σ with
  | nil =>
    obtain ⟨en, ae, an, ap, ce, cn, cp, cc⟩ := σ
    simp [renderPieces, guardedRender, acceptedCount]
  | cons p ps ih =>
    cases p with
    | lit c =>
      simp only [renderPieces, guardedRender, acceptedCount, ih]
    | mat m =>
      rcases hm : m.any hexOrColon with _ | _
      · obtain ⟨en, ae, an, ap, ce, cn, cp, cc⟩ := σ
        simp only [renderPieces, guardedRender, acceptedCount, phoneRepl, hm, if_false,
          Bool.false_eq_true, incPhone, ih]
        have h1 : cp + 1 + acceptedCount ps = cp + (1 + acceptedCount ps) := by omega
        rw [h1]
      · obtain ⟨en, ae, an, ap, ce, cn, cp, cc⟩ := σ
        simp only [renderPieces, guardedRender, acceptedCount, phoneRepl, hm, if_true, ih]
        simp

/-- `filterEmails` in closed form. -/
theorem filterEmails_eq (s : String) (σ : PIIFilter) :
    filterEmails s σ =
      (String.mk (numberedRender emailTok σ.counters.email (scanPieces matchEmail none s.data)),
       { σ with counters := { σ.counters with email := σ.counters.email + emailMatchCount s } }) := by
  simp [filterEmails, renderPieces_emailRepl, emailMatchCount]

/-- The phone passes leave everything except the phone counter unchanged. -/
theorem filterPhoneNumbers_frame (s : String) (σ : PIIFilter) :
    (filterPhoneNumbers s σ).2.enabled = σ.enabled
    ∧ (filterPhoneNumbers s σ).2.anonymizeEmails = σ.anonymizeEmails
    ∧ (filterPhoneNumbers s σ).2.anonymizeNames = σ.anonymizeNames
    ∧ (filterPhoneNumbers s σ).2.anonymizePhone = σ.anonymizePhone
    ∧ (filterPhoneNumbers s σ).2.counters.email = σ.counters.email
    ∧ (filterPhoneNumbers s σ).2.counters.name = σ.counters.name
    ∧ (filterPhoneNumbers s σ).2.counters.company = σ.counters.company := by
  simp [filterPhoneNumbers, renderPieces_phoneRepl]

/-- The email pass leaves everything except the email counter unchanged,
and advances it by the match count. -/
theorem filterEmails_frame (s : String) (σ : PIIFilter) :
    (filterEmails s σ).2.enabled = σ.enabled
    ∧ (filterEmails s σ).2.anonymizeEmails = σ.anonymizeEmails
    ∧ (filterEmails s σ).2.anonymizeNames = σ.anonymizeNames
    ∧ (filterEmails s σ).2.anonymizePhone = σ.anonymizePhone
    ∧ (filterEmails s σ).2.counters.email = σ.counters.email + emailMatchCount s
    ∧ (filterEmails s σ).2.counters.name = σ.counters.name
    ∧ (filterEmails s σ).2.counters.phone = σ.counters.phone
    ∧ (filterEmails s σ).2.counters.company = σ.counters.company := by
  simp [filterEmails_eq]

/-- The state part of `filterText`: the flags and the name/company counters
never change; the email counter does not move when the email toggle is off,
and advances by the number of email matches when it is on (for truthy text
on an enabled filter); the phone counter does not move when the phone
toggle is off. -/
theorem filterText_state (s : String) (σ : PIIFilter) :
    (filterText s σ).2.enabled = σ.enabled
    ∧ (filterText s σ).2.anonymizeEmails = σ.anonymizeEmails
    ∧ (filterText s σ).2.anonymizeNames = σ.anonymizeNames
    ∧ (filterText s σ).2.anonymizePhone = σ.anonymizePhone
    ∧ (filterText s σ).2.counters.name = σ.counters.name
    ∧ (filterText s σ).2.counters.company = σ.counters.company
    ∧ (σ.anonymizeEmails = false → (filterText s σ).2.counters.email = σ.counters.email)
    ∧ (σ.anonymizePhone = false → (filterText s σ).2.counters.phone = σ.counters.phone)
    ∧ (σ.anonymizeEmails = true →
        (filterText s σ).2.counters.email =
          σ.counters.email + (if !σ.enabled || s == "" then 0 else emailMatchCount s)) := by
  obtain ⟨en, ae, an, ap, ce, cn, cp, cc⟩ := σ
  by_cases h : !en || s == ""
  · simp [filterText, h]
  · cases ae <;> cases ap <;>
      simp [filterText, h, filterPhoneNumbers, renderPieces_phoneRepl, filterEmails_eq,
        emailMatchCount]

/-- Unfolding the object-field loop one entry at a time through
`filterEntry`. -/
theorem filterFields_cons (rules : FieldRules) (k : String) (v : JsValue)
    (rest : List (String × JsValue)) (σ : PIIFilter) :
    filterFields rules ((k, v) :: rest) σ =
      (let p := filterEntry rules k v σ
       let q := filterFields rules rest p.2
       ((k, p.1) :: q.1, q.2)) := by
  cases v <;> simp [filterFields, filterEntry, filterEntryWith]

/-- Unfolding the array-item loop one entry at a time through
`filterEntry`. -/
theorem filterItems_cons (rules : FieldRules) (i : Nat) (v : JsValue)
    (rest : List JsValue) (σ : PIIFilter) :
    filterItems rules i (v :: rest) σ =
      (let p := filterEntry rules (toString i) v σ
       let q := filterItems rules (i + 1) rest p.2
       (p.1 :: q.1, q.2)) := by
  cases v <;> simp [filterItems, filterEntry, filterEntryWith]

/-- `filterObject` on an enabled filter and an object input runs the field
loop into a fresh object. -/
theorem filterObject_obj (rules : FieldRules) (fields : List (String × JsValue))
    (σ : PIIFilter) (h : σ.enabled = true) :
    filterObject rules (.obj fields) σ =
      ((.obj (filterFields rules fields σ).1 : JsValue), (filterFields rules fields σ).2) := by
  rw [filterObject]
  simp [h, jsFalsy]

/-- `filterObject` returns falsy input unchanged. -/
theorem filterObject_falsy (rules : FieldRules) (v : JsValue) (σ : PIIFilter)
    (h : jsFalsy v = true) :
    filterObject rules v σ = (v, σ) := by
  cases v with
  | arr xs => simp [jsFalsy] at h
  | obj fs => simp [jsFalsy] at h
  | _ => rw [filterObject] <;> simp_all [jsFalsy]

/-- `filterObject` on a disabled filter returns any input unchanged. -/
theorem filterObject_disabled (rules : FieldRules) (v : JsValue) (σ : PIIFilter)
    (h : σ.enabled = false) :
    filterObject rules v σ = (v, σ) := by
  cases v <;> rw [filterObject] <;> simp_all [jsFalsy]


/-! ## Lemmas for the phone disambiguation guard (C5) -/

theorem digit_not_hexOrColon (c : Char) (h : c.isDigit = true) : hexOrColon c = false := by
  simp only [Char.isDigit, Bool.and_eq_true, decide_eq_true_eq] at h
  have h1 : (48 : Nat) ≤ c.val.toNat := h.1
  have h2 : c.val.toNat ≤ (57 : Nat) := h.2
  rcases hx : hexOrColon c with _ | _
  · rfl
  · exfalso
    simp only [hexOrColon, Bool.or_eq_true, Bool.and_eq_true, decide_eq_true_eq, beq_iff_eq] at hx
    rcases hx with (⟨ha, _⟩ | ⟨ha, hb⟩) | hc
    · have ha' : (97 : Nat) ≤ c.val.toNat := ha
      omega
    · have ha' : (65 : Nat) ≤ c.val.toNat := ha
      have hb' : c.val.toNat ≤ (70 : Nat) := hb
      omega
    · subst hc
      exact absurd h2 (by decide)

theorem takeDigits_spec : ∀ (n : Nat) (s r : List Char), takeDigits n s = some r →
    ∃ pre, s = pre ++ r ∧ pre.length = n ∧ ∀ c ∈ pre, c.isDigit = true := by
  intro n
  induction n with
  | zero =>
    intro s r h
    simp only [takeDigits, Option.some.injEq] at h
    exact ⟨[], by simp [h], rfl, by simp⟩
  | succ n ih =>
    intro s r h
    cases s with
    | nil => simp [takeDigits] at h
    | cons c cs =>
      simp only [takeDigits] at h
      by_cases hc : c.isDigit
      · rw [if_pos hc] at h
        obtain ⟨pre, hp, hl, hd⟩ := ih cs r h
        refine ⟨c :: pre, by simp [hp], by simp [hl], ?_⟩
        intro x hx
        rcases List.mem_cons.mp hx with hx | hx
        · subst hx; exact hc
        · exact hd x hx
      · rw [if_neg hc] at h
        cases h

theorem sep_not_hexOrColon (c : Char) (h : isSepChar c = true) : hexOrColon c = false := by
  simp only [isSepChar, isSpaceChar, Bool.or_eq_true, beq_iff_eq] at h
  have hc : c = '-' ∨ c = '.' ∨ c = ' ' ∨ c = '\t' ∨ c = '\n' ∨ c = '\r' ∨ c = '\x0b' ∨ c = '\x0c' := by
    tauto
  rcases hc with h | h | h | h | h | h | h | h <;> subst h <;> decide

theorem all_not_hex_digits (q : List Char) (h : ∀ c ∈ q, c.isDigit = true) :
    q.all (fun c => !hexOrColon c) = true := by
  rw [List.all_eq_true]
  intro x hx
  rw [digit_not_hexOrColon x (h x hx)]
  rfl

theorem take_all_of_decomp (s pre rest : List Char) (n : Nat) (hs : s = pre ++ rest)
    (hl : pre.length = n) (ha : pre.all (fun c => !hexOrColon c) = true) :
    (s.take n).all (fun c => !hexOrColon c) = true := by
  rw [hs, ← hl, List.take_left]
  exact ha

theorem matchPhone1_spec (prev : Option Char) (s : List Char) (n : Nat)
    (h : matchPhone1 prev s = some n) :
    1 ≤ n ∧ (s.take n).all (fun c => !hexOrColon c) = true := by
  have hlp : (!hexOrColon '(') = true := by decide
  have hrp : (!hexOrColon ')') = true := by decide
  cases s with
  | nil => simp [matchPhone1] at h
  | cons c cs =>
    rw [matchPhone1] at h
    simp only at h
    split at h
    case isFalse => cases h
    case isTrue hb =>
      rcases hpar : (c == '(') with _ | _ <;>
        simp only [hpar, if_true, if_false, Bool.false_eq_true, List.drop] at h
      · -- no opening parenthesis
        split at h
        next => cases h
        next s2 h1 =>
          obtain ⟨q1, e1, l1, dg1⟩ := takeDigits_spec 3 _ _ h1
          by_cases hpc : s2.head? = some ')'
          · cases s2 with
            | nil => simp at hpc
            | cons c2 r =>
              have hc2 : c2 = ')' := by simpa using hpc
              subst hc2
              simp only [hpc, if_true, List.tail_cons, reduceIte] at h
              split at h
              next => cases h
              next d1 s4 =>
                split at h
                next hd1 =>
                  split at h
                  next => cases h
                  next s5 h2 =>
                    split at h
                    next => cases h
                    next d2 s6 =>
                      split at h
                      next hd2 =>
                        split at h
                        next => cases h
                        next s7 h3 =>
                          split at h
                          next => cases h
                          next hw =>
                            have hn : n = 0 + 3 + 1 + 1 + 3 + 1 + 4 := (Option.some.inj h).symm
                            obtain ⟨q2, e2, l2, dg2⟩ := takeDigits_spec 3 _ _ h2
                            obtain ⟨q3, e3, l3, dg3⟩ := takeDigits_spec 4 _ _ h3
                            subst e3
                            subst e2
                            refine ⟨by omega, ?_⟩
                            refine take_all_of_decomp _ (q1 ++ [')'] ++ [d1] ++ q2 ++ [d2] ++ q3) s7 n ?_
                              (by simp [l1, l2, l3]; omega) ?_
                            · rw [e1]; simp
                            · simp [List.all_append, all_not_hex_digits _ dg1, all_not_hex_digits _ dg2,
                                all_not_hex_digits _ dg3, sep_not_hexOrColon _ hd1,
                                sep_not_hexOrColon _ hd2, hrp]
                      next => cases h
                next => cases h

          · simp only [hpc, if_false, reduceIte] at h
            split at h
            next => cases h
            next d1 s4 =>
              split at h
              next hd1 =>
                split at h
                next => cases h
                next s5 h2 =>
                  split at h
                  next => cases h
                  next d2 s6 =>
                    split at h
                    next hd2 =>
                      split at h
                      next => cases h
                      next s7 h3 =>
                        split at h
                        next => cases h
                        next hw =>
                          have hn : n = 0 + 3 + 0 + 1 + 3 + 1 + 4 := (Option.some.inj h).symm
                          obtain ⟨q2, e2, l2, dg2⟩ := takeDigits_spec 3 _ _ h2
                          obtain ⟨q3, e3, l3, dg3⟩ := takeDigits_spec 4 _ _ h3
                          subst e3
                          subst e2
                          refine ⟨by omega, ?_⟩
                          refine take_all_of_decomp _ (q1 ++ [d1] ++ q2 ++ [d2] ++ q3) s7 n ?_
                            (by simp [l1, l2, l3]; omega) ?_
                          · rw [e1]; simp
                          · simp [List.all_append, all_not_hex_digits _ dg1, all_not_hex_digits _ dg2,
                              all_not_hex_digits _ dg3, sep_not_hexOrColon _ hd1,
                              sep_not_hexOrColon _ hd2]
                    next => cases h
              next => cases h

      · -- opening parenthesis consumed: c = '('
        have hc : c = '(' := by simpa using hpar
        subst hc
        split at h
        next => cases h
        next s2 h1 =>
          obtain ⟨q1, e1, l1, dg1⟩ := takeDigits_spec 3 _ _ h1
          by_cases hpc : s2.head? = some ')'
          · cases s2 with
            | nil => simp at hpc
            | cons c2 r =>
              have hc2 : c2 = ')' := by simpa using hpc
              subst hc2
              simp only [hpc, if_true, List.tail_cons, reduceIte] at h
              split at h
              next => cases h
              next d1 s4 =>
                split at h
                next hd1 =>
                  split at h
                  next => cases h
                  next s5 h2 =>
                    split at h
                    next => cases h
                    next d2 s6 =>
                      split at h
                      next hd2 =>
                        split at h
                        next => cases h
                        next s7 h3 =>
                          split at h
                          next => cases h
                          next hw =>
                            have hn : n = 1 + 3 + 1 + 1 + 3 + 1 + 4 := (Option.some.inj h).symm
                            obtain ⟨q2, e2, l2, dg2⟩ := takeDigits_spec 3 _ _ h2
                            obtain ⟨q3, e3, l3, dg3⟩ := takeDigits_spec 4 _ _ h3
                            subst e3
                            subst e2
                            refine ⟨by omega, ?_⟩
                            refine take_all_of_decomp _ ('(' :: (q1 ++ [')'] ++ [d1] ++ q2 ++ [d2] ++ q3)) s7 n ?_
                              (by simp [l1, l2, l3]; omega) ?_
                            · rw [e1]; simp
                            · simp [List.all_append, all_not_hex_digits _ dg1, all_not_hex_digits _ dg2,
                                all_not_hex_digits _ dg3, sep_not_hexOrColon _ hd1,
                                sep_not_hexOrColon _ hd2, hlp, hrp]
                      next => cases h
                next => cases h

          · simp only [hpc, if_false, reduceIte] at h
            split at h
            next => cases h
            next d1 s4 =>
              split at h
              next hd1 =>
                split at h
                next => cases h
                next s5 h2 =>
                  split at h
                  next => cases h
                  next d2 s6 =>
                    split at h
                    next hd2 =>
                      split at h
                      next => cases h
                      next s7 h3 =>
                        split at h
                        next => cases h
                        next hw =>
                          have hn : n = 1 + 3 + 0 + 1 + 3 + 1 + 4 := (Option.some.inj h).symm
                          obtain ⟨q2, e2, l2, dg2⟩ := takeDigits_spec 3 _ _ h2
                          obtain ⟨q3, e3, l3, dg3⟩ := takeDigits_spec 4 _ _ h3
                          subst e3
                          subst e2
                          refine ⟨by omega, ?_⟩
                          refine take_all_of_decomp _ ('(' :: (q1 ++ [d1] ++ q2 ++ [d2] ++ q3)) s7 n ?_
                            (by simp [l1, l2, l3]; omega) ?_
                          · rw [e1]; simp
                          · simp [List.all_append, all_not_hex_digits _ dg1, all_not_hex_digits _ dg2,
                              all_not_hex_digits _ dg3, sep_not_hexOrColon _ hd1,
                              sep_not_hexOrColon _ hd2, hlp]
                    next => cases h
              next => cases h

theorem space_not_hexOrColon (c : Char) (h : isSpaceChar c = true) : hexOrColon c = false :=
  sep_not_hexOrColon c (by simp [isSepChar, h])

theorem digitGroupSpace_spec : ∀ (k lo : Nat) (s : List Char) (g : Nat) (r : List Char),
    digitGroupSpace lo k s = some (g, r) →
    ∃ pre sp, s = pre ++ sp :: r ∧ g = pre.length + 1 ∧
      (∀ c ∈ pre, c.isDigit = true) ∧ isSpaceChar sp = true := by
  intro k
  induction k with
  | zero => intro lo s g r h; simp [digitGroupSpace] at h
  | succ k ih =>
    intro lo s g r h
    rw [digitGroupSpace] at h
    split at h
    next => cases h
    next hlo =>
      split at h
      next sp rest htd =>
        split at h
        next hsp =>
          obtain ⟨pre, hp, hl, hd⟩ := takeDigits_spec (k + 1) _ _ htd
          obtain ⟨hg, hr⟩ : g = k + 2 ∧ rest = r := by
            have h2 := Option.some.inj h
            rw [Prod.mk.injEq] at h2
            exact ⟨h2.1.symm, h2.2⟩
          subst hr
          exact ⟨pre, sp, hp, by omega, hd, hsp⟩
        next => exact ih lo s g r h
      next => exact ih lo s g r h

theorem matchPhone2_spec (prev : Option Char) (s : List Char) (n : Nat)
    (h : matchPhone2 prev s = some n) :
    1 ≤ n ∧ (s.take n).all (fun c => !hexOrColon c) = true := by
  have hplus : (!hexOrColon '+') = true := by decide
  cases s with
  | nil => simp [matchPhone2] at h
  | cons c cs =>
    rw [matchPhone2] at h
    split at h
    case isFalse => cases h
    case isTrue hb =>
      have hc : c = '+' := by
        have := (Bool.and_eq_true _ _).mp hb
        simpa using this.2
      subst hc
      split at h
      next => cases h
      next g1 r1 h1 =>
        split at h
        next => cases h
        next g2 r2 h2 =>
          split at h
          next => cases h
          next g3 r3 h3 =>
            split at h
            next => cases h
            next r4 h4 =>
              split at h
              next => cases h
              next hw =>
                have hn : n = 1 + g1 + g2 + g3 + 4 := (Option.some.inj h).symm
                obtain ⟨q1, sp1, e1, hg1, dg1, hsp1⟩ := digitGroupSpace_spec 3 1 _ _ _ h1
                obtain ⟨q2, sp2, e2, hg2, dg2, hsp2⟩ := digitGroupSpace_spec 4 2 _ _ _ h2
                obtain ⟨q3, sp3, e3, hg3, dg3, hsp3⟩ := digitGroupSpace_spec 4 3 _ _ _ h3
                obtain ⟨q4, e4, l4, dg4⟩ := takeDigits_spec 4 _ _ h4
                subst e4
                subst e3
                subst e2
                refine ⟨by omega, ?_⟩
                refine take_all_of_decomp _
                  ('+' :: (q1 ++ [sp1] ++ q2 ++ [sp2] ++ q3 ++ [sp3] ++ q4)) r4 n ?_ ?_ ?_
                · rw [e1]; simp
                · simp
                  omega
                · simp [List.all_append, all_not_hex_digits _ dg1, all_not_hex_digits _ dg2,
                    all_not_hex_digits _ dg3, all_not_hex_digits _ dg4,
                    space_not_hexOrColon _ hsp1, space_not_hexOrColon _ hsp2,
                    space_not_hexOrColon _ hsp3, hplus]

theorem matchPhone3_spec (prev : Option Char) (s : List Char) (n : Nat)
    (h : matchPhone3 prev s = some n) :
    1 ≤ n ∧ (s.take n).all (fun c => !hexOrColon c) = true := by
  cases s with
  | nil => simp [matchPhone3] at h
  | cons c cs =>
    rw [matchPhone3] at h
    split at h
    case isFalse => cases h
    case isTrue hb =>
      split at h
      case h_1 => cases h
      case h_2 s1 h1 =>
        split at h
        case h_2 => cases h
        case h_1 s2 hs1 =>
          split at h
          case h_1 => cases h
          case h_2 s3 h3 =>
            split at h
            case h_2 => cases h
            case h_1 s4 hs3 =>
              split at h
              case h_1 => cases h
              case h_2 s5 h5 =>
                split at h
                case isTrue => cases h
                case isFalse hw =>
                  have hn : n = 12 := by
                    have := Option.some.inj h
                    omega
                  subst hn
                  obtain ⟨p1, e1, l1, d1⟩ := takeDigits_spec 3 _ _ h1
                  obtain ⟨p2, e2, l2, d2⟩ := takeDigits_spec 3 _ _ h3
                  obtain ⟨p3, e3, l3, d3⟩ := takeDigits_spec 4 _ _ h5
                  refine ⟨by omega, ?_⟩
                  subst e3
                  subst e2
                  rw [e1]
                  have hassoc : p1 ++ '.' :: (p2 ++ '.' :: (p3 ++ s5)) =
                      (p1 ++ ['.'] ++ p2 ++ ['.'] ++ p3) ++ s5 := by simp
                  rw [hassoc]
                  have hlen : (p1 ++ ['.'] ++ p2 ++ ['.'] ++ p3).length = 12 := by
                    simp [l1, l2, l3]
                  rw [← hlen, List.take_left, List.all_eq_true]
                  intro x hx
                  have hdig : ∀ y : Char, y.isDigit = true → (!hexOrColon y) = true :=
                    fun y hy => by rw [digit_not_hexOrColon y hy]; rfl
                  simp only [List.mem_append, List.mem_singleton] at hx
                  rcases hx with (((hx | hx) | hx) | hx) | hx
                  · exact hdig x (d1 x hx)
                  · subst hx; decide
                  · exact hdig x (d2 x hx)
                  · subst hx; decide
                  · exact hdig x (d3 x hx)

/-- Every matched span produced by a scan pass arises from a successful
match of the pass's matcher. -/
theorem scanPiecesF_mat (M : Option Char → List Char → Option Nat) :
    ∀ (fuel : Nat) (prev : Option Char) (s : List Char) (m : List Char),
    Piece.mat m ∈ scanPiecesF M fuel prev s →
    ∃ p t n, M p t = some n ∧ m = t.take (max n 1) := by
  intro fuel
  induction fuel with
  | zero =>
    intro prev s m hm
    simp [scanPiecesF, List.mem_map] at hm
  | succ fuel ih =>
    intro prev s m hm
    cases s with
    | nil => simp [scanPiecesF] at hm
    | cons c cs =>
      rw [scanPiecesF] at hm
      split at hm
      next n hM =>
        rcases List.mem_cons.mp hm with hm | hm
        · refine ⟨prev, c :: cs, n, hM, ?_⟩
          injection hm
        · exact ih _ _ _ hm
      next hM =>
        rcases List.mem_cons.mp hm with hm | hm
        · exact absurd hm (by simp)
        · exact ih _ _ _ hm

/-- `scanPieces` version of `scanPiecesF_mat`. -/
theorem scanPieces_mat (M : Option Char → List Char → Option Nat)
    (prev : Option Char) (s : List Char) (m : List Char)
    (hm : Piece.mat m ∈ scanPieces M prev s) :
    ∃ p t n, M p t = some n ∧ m = t.take (max n 1) :=
  scanPiecesF_mat M s.length prev s m hm

/-! ## Claim theorems -/

/-- C8: for every filter state, `resetCounters` sets all four counters
(email, name, phone, company) to 0 and leaves every other part of the
state — `enabled`, `anonymizeEmails`, `anonymizeNames`, `anonymizePhone` —
unchanged. -/
theorem C8_resetCounters (σ : PIIFilter) :
    (resetCounters σ).counters.email = 0
    ∧ (resetCounters σ).counters.name = 0
    ∧ (resetCounters σ).counters.phone = 0
    ∧ (resetCounters σ).counters.company = 0
    ∧ (resetCounters σ).enabled = σ.enabled
    ∧ (resetCounters σ).anonymizeEmails = σ.anonymizeEmails
    ∧ (resetCounters σ).anonymizeNames = σ.anonymizeNames
    ∧ (resetCounters σ).anonymizePhone = σ.anonymizePhone :=
  ⟨rfl, rfl, rfl, rfl, rfl, rfl, rfl, rfl⟩

/-- C9: in `filterObject`, the field-rule table and the built-in key-name
heuristics are consulted only for string-valued fields: a field whose value
is a (non-null) object or array recurses into `filterObject` with the same
rule table rather than invoking the rule bound to its key, and a number or
boolean field passes through unchanged even when a field rule exists for
its key.  The last two conjuncts tie the per-entry dispatch `filterEntry`
to the loops `filterObject` actually runs. -/
theorem C9_string_only_dispatch :
    (∀ (rules : FieldRules) (k : String) (fs : List (String × JsValue)) (σ : PIIFilter),
      filterEntry rules k (.obj fs) σ = filterObject rules (.obj fs) σ)
    ∧ (∀ (rules : FieldRules) (k : String) (xs : List JsValue) (σ : PIIFilter),
      filterEntry rules k (.arr xs) σ = filterObject rules (.arr xs) σ)
    ∧ (∀ (rules : FieldRules) (f : FieldRule) (k : String) (n : Int) (σ : PIIFilter),
      filterEntry ((k, f) :: rules) k (.num n) σ = (.num n, σ))
    ∧ (∀ (rules : FieldRules) (f : FieldRule) (k : String) (b : Bool) (σ : PIIFilter),
      filterEntry ((k, f) :: rules) k (.bool b) σ = (.bool b, σ))
    ∧ (∀ (rules : FieldRules) (k : String) (v : JsValue) (rest : List (String × JsValue))
        (σ : PIIFilter),
      filterFields rules ((k, v) :: rest) σ =
        (let p := filterEntry rules k v σ
         let q := filterFields rules rest p.2
         ((k, p.1) :: q.1, q.2)))
    ∧ (∀ (rules : FieldRules) (i : Nat) (v : JsValue) (rest : List JsValue) (σ : PIIFilter),
      filterItems rules i (v :: rest) σ =
        (let p := filterEntry rules (toString i) v σ
         let q := filterItems rules (i + 1) rest p.2
         (p.1 :: q.1, q.2))) :=
  ⟨fun _ _ _ _ => rfl, fun _ _ _ _ => rfl, fun _ _ _ _ _ => rfl, fun _ _ _ _ _ => rfl,
   filterFields_cons, filterItems_cons⟩

/-- C1 counterexample: the claim says a field rule takes precedence over the
safe-field allowlist.  It does not: with a rule bound to the allowlisted key
`id`, `filterObject` returns the untouched input value `"secret"`, not the
rule's result `"CHANGED"`. -/
theorem C1_counterexample :
    ((filterObject [("id", fun _ σ => (JsValue.str "CHANGED", σ))]
        (JsValue.obj [("id", JsValue.str "secret")]) defaultFilter).1
      = JsValue.obj [("id", JsValue.str "secret")])
    ∧ safeFields.contains (jsToLower "id") = true
    ∧ (findRule [("id", fun _ σ => (JsValue.str "CHANGED", σ))] "id").isSome = true
    ∧ ("secret" : String) ≠ "CHANGED" :=
  ⟨rfl, rfl, rfl, by decide⟩

/-- C1 (amended): the safe-field allowlist takes precedence over the
caller-supplied rule table: a string field whose key is (case-insensitively)
allowlisted passes through untouched regardless of any rule bound to that
key, and the rule's result is used exactly when the key is not allowlisted
and a (case-sensitive) rule entry exists.  The last conjunct exhibits this
inside `filterObject` on a one-field object. -/
theorem C1_allowlist_over_rules :
    (∀ (rules : FieldRules) (k s : String) (σ : PIIFilter),
      safeFields.contains (jsToLower k) = true →
      filterEntry rules k (.str s) σ = (.str s, σ))
    ∧ (∀ (rules : FieldRules) (k s : String) (σ : PIIFilter) (f : FieldRule),
      safeFields.contains (jsToLower k) = false →
      findRule rules k = some f →
      filterEntry rules k (.str s) σ = f s σ)
    ∧ (∀ (rules : FieldRules) (k s : String) (σ : PIIFilter),
      σ.enabled = true →
      filterObject rules (.obj [(k, .str s)]) σ =
        ((.obj [(k, (filterEntry rules k (.str s) σ).1)] : JsValue),
         (filterEntry rules k (.str s) σ).2)) := by
  refine ⟨?_, ?_, ?_⟩
  · intro rules k s σ hsafe
    replace hsafe : jsToLower k ∈ safeFields := by simpa using hsafe
    simp [filterEntry, filterEntryWith, filterStringField, hsafe]
  · intro rules k s σ f hsafe hrule
    replace hsafe : jsToLower k ∉ safeFields := by simpa using hsafe
    simp [filterEntry, filterEntryWith, filterStringField, hsafe, hrule]
  · intro rules k s σ hen
    rw [filterObject_obj rules _ σ hen, filterFields_cons]
    simp [filterFields]

/-- C1 witness: the allowlisted key `id` with a rule bound to it, on a
default filter. -/
theorem C1_witness :
    safeFields.contains (jsToLower "id") = true
    ∧ filterEntry [("id", fun _ σ => (JsValue.str "CHANGED", σ))] "id"
        (.str "secret") defaultFilter = (.str "secret", defaultFilter) :=
  ⟨rfl, C1_allowlist_over_rules.1 [("id", fun _ σ => (JsValue.str "CHANGED", σ))]
    "id" "secret" defaultFilter rfl⟩

/-- C2 counterexample: with the filter enabled but `anonymizeEmails` off,
`filterObject` still replaces an `email`-keyed string value with an email
token and still increments the email counter, so the email toggle does not
gate the key-name email transform of `filterObject`. -/
theorem C2_counterexample :
    ((filterObject [] (JsValue.obj [("email", JsValue.str "a@b.com")])
        { defaultFilter with anonymizeEmails := false }).1
      = JsValue.obj [("email", JsValue.str "[EMAIL_1]")])
    ∧ ((filterObject [] (JsValue.obj [("email", JsValue.str "a@b.com")])
        { defaultFilter with anonymizeEmails := false }).2.counters.email = 1)
    ∧ ({ defaultFilter with anonymizeEmails := false } : PIIFilter).anonymizeEmails = false
    ∧ ({ defaultFilter with anonymizeEmails := false } : PIIFilter).enabled = true
    ∧ ({ defaultFilter with anonymizeEmails := false } : PIIFilter).counters.email = 0
    ∧ ("[EMAIL_1]" : String) ≠ "a@b.com" :=
  ⟨rfl, rfl, rfl, rfl, rfl, by decide⟩

/-- C2 (amended): each category toggle gates its transform inside
`filterText` (with `anonymizeEmails` off the email counter never moves and
the email pass is skipped; with `anonymizePhone` off the phone counter
never moves and the phone passes are skipped), and `anonymizeNames` off
makes `anonymizeName` the identity — each independent of the sibling
toggles.  `filterObject`'s direct key-name email/phone replacements,
however, run regardless of the `anonymizeEmails`/`anonymizePhone` toggles
(last two conjuncts, with no toggle hypothesis). -/
theorem C2_toggles :
    (∀ (s : String) (σ : PIIFilter), σ.anonymizeEmails = false →
      (filterText s σ).2.counters.email = σ.counters.email
      ∧ filterText s σ =
          (if !σ.enabled || s == "" then (s, σ)
           else
             let p := if σ.anonymizePhone then filterPhoneNumbers s σ else (s, σ)
             (filterSensitiveUrls p.1, p.2)))
    ∧ (∀ (s : String) (σ : PIIFilter), σ.anonymizePhone = false →
      (filterText s σ).2.counters.phone = σ.counters.phone
      ∧ filterText s σ =
          (if !σ.enabled || s == "" then (s, σ)
           else
             let p := if σ.anonymizeEmails then filterEmails s σ else (s, σ)
             (filterSensitiveUrls p.1, p.2)))
    ∧ (∀ (n : String) (σ : PIIFilter), σ.anonymizeNames = false →
      anonymizeName n σ = (n, σ))
    ∧ (∀ (v : JsValue) (σ : PIIFilter), σ.anonymizeNames = false →
      anonymizeNameValue v σ = (v, σ))
    ∧ (∀ (rules : FieldRules) (k s : String) (σ : PIIFilter),
      emailFieldNames.contains (jsToLower k) = true →
      safeFields.contains (jsToLower k) = false →
      findRule rules k = none →
      filterEntry rules k (.str s) σ =
        (.str (String.mk (emailTok (σ.counters.email + 1))), incEmail σ))
    ∧ (∀ (rules : FieldRules) (k s : String) (σ : PIIFilter),
      phoneFieldNames.contains (jsToLower k) = true →
      safeFields.contains (jsToLower k) = false →
      emailFieldNames.contains (jsToLower k) = false →
      findRule rules k = none →
      filterEntry rules k (.str s) σ =
        (.str (String.mk (phoneTok (σ.counters.phone + 1))), incPhone σ)) := by
  refine ⟨?_, ?_, ?_, ?_, ?_, ?_⟩
  · intro s σ hae
    constructor
    · exact (filterText_state s σ).2.2.2.2.2.2.1 hae
    · obtain ⟨en, ae, an, ap, ce, cn, cp, cc⟩ := σ
      cases hae
      by_cases h : !en || s == "" <;> simp [filterText, h]
  · intro s σ hap
    constructor
    · exact (filterText_state s σ).2.2.2.2.2.2.2.1 hap
    · obtain ⟨en, ae, an, ap, ce, cn, cp, cc⟩ := σ
      cases hap
      by_cases h : !en || s == ""
      · simp [filterText, h]
      · cases ae <;> simp [filterText, h, filterEmails_eq]
  · intro n σ han
    simp [anonymizeName, han]
  · intro v σ han
    simp [anonymizeNameValue, han]
  · intro rules k s σ hk hsafe hr
    replace hk : jsToLower k ∈ emailFieldNames := by simpa using hk
    replace hsafe : jsToLower k ∉ safeFields := by simpa using hsafe
    simp [filterEntry, filterEntryWith, filterStringField, hk, hsafe, hr]
  · intro rules k s σ hk hsafe hek hr
    replace hk : jsToLower k ∈ phoneFieldNames := by simpa using hk
    replace hsafe : jsToLower k ∉ safeFields := by simpa using hsafe
    replace hek : jsToLower k ∉ emailFieldNames := by simpa using hek
    simp [filterEntry, filterEntryWith, filterStringField, hk, hsafe, hek, hr]

/-- C2 witness: concrete instantiations of every hypothesis-bearing
conjunct of the amended claim. -/
theorem C2_witness :
    (filterText "x a@b.com" { defaultFilter with anonymizeEmails := false }).2.counters.email = 0
    ∧ anonymizeName "John Doe" { defaultFilter with anonymizeNames := false }
        = ("John Doe", { defaultFilter with anonymizeNames := false })
    ∧ filterEntry [] "email" (.str "a@b.com") { defaultFilter with anonymizeEmails := false }
        = (.str (String.mk (emailTok 1)), incEmail { defaultFilter with anonymizeEmails := false }) :=
  ⟨(C2_toggles.1 "x a@b.com" { defaultFilter with anonymizeEmails := false } rfl).1,
   C2_toggles.2.2.1 "John Doe" { defaultFilter with anonymizeNames := false } rfl,
   C2_toggles.2.2.2.2.1 [] "email" "a@b.com" { defaultFilter with anonymizeEmails := false }
     rfl rfl rfl⟩

/-- C4: the filter is total and defensive at every entry point: on
`null`/empty input each entry point returns the input unchanged without
raising (the `Except`-typed entry points take the `.ok` branch), and with
`enabled = false`, `filterText` and `filterObject` return any input
unchanged with the state — in particular every counter — untouched. -/
theorem C4_total_defensive (σ : PIIFilter) (rules : FieldRules) :
    filterTextValue .null σ = .ok (.null, σ)
    ∧ filterTextValue (.str "") σ = .ok (.str "", σ)
    ∧ anonymizeNameValue .null σ = (.null, σ)
    ∧ anonymizeNameValue (.str "") σ = (.str "", σ)
    ∧ anonymizeCompanyValue .null σ = .ok (.null, σ)
    ∧ anonymizeCompanyValue (.str "") σ = .ok (.str "", σ)
    ∧ filterObject rules .null σ = (.null, σ)
    ∧ filterObject rules (.str "") σ = (.str "", σ)
    ∧ anonymizeName "" σ = ("", σ)
    ∧ anonymizeCompany "" σ = ("", σ)
    ∧ filterText "" σ = ("", σ)
    ∧ (σ.enabled = false →
        ∀ (v : JsValue) (s : String),
          filterTextValue v σ = .ok (v, σ)
          ∧ filterObject rules v σ = (v, σ)
          ∧ filterText s σ = (s, σ)
          ∧ anonymizeName s σ = (s, σ)
          ∧ anonymizeCompany s σ = (s, σ)) := by
  refine ⟨?_, ?_, ?_, ?_, ?_, ?_, ?_, ?_, ?_, ?_, ?_, ?_⟩
  · simp [filterTextValue, jsFalsy]
  · simp [filterTextValue, jsFalsy]
  · simp [anonymizeNameValue, jsFalsy]
  · simp [anonymizeNameValue, jsFalsy]
  · simp [anonymizeCompanyValue, jsFalsy]
  · simp [anonymizeCompanyValue, jsFalsy]
  · exact filterObject_falsy rules .null σ rfl
  · exact filterObject_falsy rules (.str "") σ rfl
  · simp [anonymizeName]
  · simp [anonymizeCompany]
  · simp [filterText]
  · intro hd v s
    refine ⟨by simp [filterTextValue, hd], filterObject_disabled rules v σ hd,
      by simp [filterText, hd], by simp [anonymizeName, hd], by simp [anonymizeCompany, hd]⟩

/-- C4 witness: a disabled filter is the identity on a concrete non-falsy
input. -/
theorem C4_witness :
    ({ defaultFilter with enabled := false } : PIIFilter).enabled = false
    ∧ filterTextValue (.str "a@b.com") { defaultFilter with enabled := false }
        = .ok (.str "a@b.com", { defaultFilter with enabled := false })
    ∧ filterObject [] (.str "a@b.com") { defaultFilter with enabled := false }
        = (.str "a@b.com", { defaultFilter with enabled := false }) :=
  ⟨rfl,
   ((C4_total_defensive { defaultFilter with enabled := false } []).2.2.2.2.2.2.2.2.2.2.2
      rfl (.str "a@b.com") "x").1,
   ((C4_total_defensive { defaultFilter with enabled := false } []).2.2.2.2.2.2.2.2.2.2.2
      rfl (.str "a@b.com") "x").2.1⟩

/-- `startsWithList` is list prefixhood. -/
theorem startsWithList_iff (p s : List Char) : startsWithList p s = true ↔ p <+: s := by
  induction p generalizing s with
  | nil => simp [startsWithList]
  | cons a ps ih =>
    cases s with
    | nil => simp [startsWithList]
    | cons b t => simp [startsWithList, List.cons_prefix_cons, ih]

/-- `containsList` is list infixhood. -/
theorem containsList_iff (sub s : List Char) : containsList sub s = true ↔ sub <:+: s := by
  induction s with
  | nil => simp [containsList, startsWithList_iff, List.infix_nil]
  | cons c cs ih =>
    rw [containsList, List.infix_cons_iff]
    simp [startsWithList_iff, ih]

/-- `jsIncludes` is substring occurrence. -/
theorem jsIncludes_iff (s sub : String) : jsIncludes s sub = true ↔ sub.data <:+: s.data :=
  containsList_iff sub.data s.data

/-- C7: for every truthy company string with the filter enabled,
`anonymizeCompany` increments the shared company counter exactly once
(touching nothing else) and classifies with fixed precedence on the
lower-cased input: containing `"enterprise"` or `"corp"` gives
`"Enterprise Client <n>"`; otherwise containing `"startup"` gives
`"Startup Client <n>"`; otherwise `"Company <n>"` — so an input containing
both `"enterprise"` and `"startup"` gets the Enterprise label. -/
theorem C7_company_classification (σ : PIIFilter) (s : String)
    (hen : σ.enabled = true) (hs : s ≠ "") :
    (anonymizeCompany s σ).2 =
      { σ with counters := { σ.counters with company := σ.counters.company + 1 } }
    ∧ (("enterprise".data <:+: (jsToLower s).data ∨ "corp".data <:+: (jsToLower s).data) →
        (anonymizeCompany s σ).1 = "Enterprise Client " ++ toString (σ.counters.company + 1))
    ∧ (¬ "enterprise".data <:+: (jsToLower s).data → ¬ "corp".data <:+: (jsToLower s).data →
        "startup".data <:+: (jsToLower s).data →
        (anonymizeCompany s σ).1 = "Startup Client " ++ toString (σ.counters.company + 1))
    ∧ (¬ "enterprise".data <:+: (jsToLower s).data → ¬ "corp".data <:+: (jsToLower s).data →
        ¬ "startup".data <:+: (jsToLower s).data →
        (anonymizeCompany s σ).1 = "Company " ++ toString (σ.counters.company + 1)) := by
  have hs' : (s == "") = false := by simpa using hs
  simp only [anonymizeCompany, hen, hs', Bool.not_true, Bool.false_or, Bool.or_false,
    if_false, Bool.false_eq_true, incCompany]
  refine ⟨by simp, ?_, ?_, ?_⟩
  · intro h
    have : (jsIncludes (jsToLower s) "enterprise" || jsIncludes (jsToLower s) "corp") = true := by
      rcases h with h | h
      · simp [(jsIncludes_iff _ _).mpr h]
      · simp [(jsIncludes_iff _ _).mpr h]
    simp [companyLabel, this]
  · intro h1 h2 h3
    have he : jsIncludes (jsToLower s) "enterprise" = false := by
      rcases hi : jsIncludes (jsToLower s) "enterprise" with _ | _
      · rfl
      · exact absurd ((jsIncludes_iff _ _).mp hi) h1
    have hc : jsIncludes (jsToLower s) "corp" = false := by
      rcases hi : jsIncludes (jsToLower s) "corp" with _ | _
      · rfl
      · exact absurd ((jsIncludes_iff _ _).mp hi) h2
    simp [companyLabel, he, hc, (jsIncludes_iff _ _).mpr h3]
  · intro h1 h2 h3
    have he : jsIncludes (jsToLower s) "enterprise" = false := by
      rcases hi : jsIncludes (jsToLower s) "enterprise" with _ | _
      · rfl
      · exact absurd ((jsIncludes_iff _ _).mp hi) h1
    have hc : jsIncludes (jsToLower s) "corp" = false := by
      rcases hi : jsIncludes (jsToLower s) "corp" with _ | _
      · rfl
      · exact absurd ((jsIncludes_iff _ _).mp hi) h2
    have hst : jsIncludes (jsToLower s) "startup" = false := by
      rcases hi : jsIncludes (jsToLower s) "startup" with _ | _
      · rfl
      · exact absurd ((jsIncludes_iff _ _).mp hi) h3
    simp [companyLabel, he, hc, hst]

/-- C7 witness: an input containing both `"enterprise"` and `"startup"`
gets the Enterprise label with the counter at 1. -/
theorem C7_witness :
    ("Enterprise Startup" : String) ≠ ""
    ∧ (anonymizeCompany "Enterprise Startup" defaultFilter).1 = "Enterprise Client 1"
    ∧ (anonymizeCompany "Enterprise Startup" defaultFilter).2.counters.company = 1 := by
  have h := C7_company_classification defaultFilter "Enterprise Startup" rfl (by decide)
  refine ⟨by decide, ?_, ?_⟩
  · have h2 := h.2.1 (Or.inl ((containsList_iff _ _).mp (by decide)))
    rw [h2]; decide
  · rw [h.1]; decide

/-- C3: counters persist across calls on one filter instance and number
replacements consecutively for the instance's lifetime.  Conjunct 1: on an
enabled instance with emails on, `filterText` runs the email pass first.
Conjunct 2: the email pass replaces its `j`-th match with the token
numbered `counters.email + j` (see `numberedRender`) and advances the
counter by the match count — so matches within one string and across
sequenced calls are numbered consecutively from a fresh instance's 0.
Conjunct 3: over any batch of `filterText` calls the email counter
accumulates the match counts.  Conjunct 4: the `k`-th truthy
`anonymizeName` call returns `"Participant <name-counter + k>"` regardless
of the input's content, and the name counter accumulates. -/
theorem C3_counters_persist :
    (∀ (s : String) (σ : PIIFilter), σ.enabled = true → σ.anonymizeEmails = true → s ≠ "" →
      filterText s σ =
        (let e := filterEmails s σ
         let p := if e.2.anonymizePhone then filterPhoneNumbers e.1 e.2 else e
         (filterSensitiveUrls p.1, p.2)))
    ∧ (∀ (s : String) (σ : PIIFilter),
      filterEmails s σ =
        (String.mk (numberedRender emailTok σ.counters.email (scanPieces matchEmail none s.data)),
         { σ with counters := { σ.counters with email := σ.counters.email + emailMatchCount s } }))
    ∧ (∀ (ts : List String) (σ : PIIFilter), σ.enabled = true → σ.anonymizeEmails = true →
      (runFilterTexts ts σ).2.counters.email = σ.counters.email + (ts.map emailMatchCount).sum)
    ∧ (∀ (ns : List String) (σ : PIIFilter), σ.enabled = true → σ.anonymizeNames = true →
      (∀ n ∈ ns, n ≠ "") →
      (runAnonymizeNames ns σ).1 =
        (List.range ns.length).map (fun j => "Participant " ++ toString (σ.counters.name + j + 1))
      ∧ (runAnonymizeNames ns σ).2.counters.name = σ.counters.name + ns.length) := by
  refine ⟨?_, filterEmails_eq, ?_, ?_⟩
  · intro s σ hen hae hs
    have hs' : (s == "") = false := by simpa using hs
    simp [filterText, hen, hs', hae]
  · intro ts
    induction ts with
    | nil => intro σ hen hae; simp [runFilterTexts]
    | cons t ts ih =>
      intro σ hen hae
      have hst := filterText_state t σ
      have h1 : (filterText t σ).2.counters.email = σ.counters.email + emailMatchCount t := by
        rw [hst.2.2.2.2.2.2.2.2 hae, hen]
        by_cases ht : t == ""
        · have ht' : t = "" := by simpa using ht
          subst ht'
          simp [emailMatchCount, scanPieces, scanPiecesF, matCount]
        · simp [ht]
      rcases hft : filterText t σ with ⟨r, σ1⟩
      have hσ1 : σ1 = (filterText t σ).2 := by rw [hft]
      have hrec := ih σ1 (by rw [hσ1, hst.1, hen]) (by rw [hσ1, hst.2.1, hae])
      simp only [runFilterTexts, hft]
      rcases hrt : runFilterTexts ts σ1 with ⟨rs, σ2⟩
      have : σ2.counters.email = σ1.counters.email + (ts.map emailMatchCount).sum := by
        rw [← hrec, hrt]
      simp only [List.map_cons, List.sum_cons]
      rw [this, hσ1, h1]
      omega
  · intro ns
    induction ns with
    | nil => intro σ hen han hne; simp [runAnonymizeNames]
    | cons n ns ih =>
      intro σ hen han hne
      have hn' : (n == "") = false := by simpa using hne n (by simp)
      have hstep : anonymizeName n σ =
          ("Participant " ++ toString (σ.counters.name + 1), incName σ) := by
        simp [anonymizeName, hen, han, hn']
      have hrec := ih (incName σ) (by simp [incName, hen]) (by simp [incName, han])
        (fun m hm => hne m (by simp [hm]))
      constructor
      · simp only [runAnonymizeNames, hstep]
        rcases hrn : runAnonymizeNames ns (incName σ) with ⟨rs, σ2⟩
        have hout : rs = (List.range ns.length).map
            (fun j => "Participant " ++ toString ((incName σ).counters.name + j + 1)) := by
          rw [← hrec.1, hrn]
        simp only [List.length_cons, List.range_succ_eq_map, List.map_cons, List.map_map]
        rw [hout]
        have htail : List.map
            (fun j => "Participant " ++ toString ((incName σ).counters.name + j + 1))
            (List.range ns.length) =
            List.map ((fun j => "Participant " ++ toString (σ.counters.name + j + 1)) ∘ Nat.succ)
            (List.range ns.length) := by
          refine List.map_congr_left ?_
          intro j _
          simp only [Function.comp_apply, incName]
          congr 2
          omega
        rw [htail]
      · simp only [runAnonymizeNames, hstep]
        rcases hrn : runAnonymizeNames ns (incName σ) with ⟨rs, σ2⟩
        have : σ2.counters.name = (incName σ).counters.name + ns.length := by
          rw [← hrec.2, hrn]
        rw [this]
        simp only [incName, List.length_cons]
        omega

/-- C3 witness: two sequenced `filterText` calls on a fresh default filter
accumulate their email matches, and three `anonymizeName` calls return
`"Participant 1"`, `"Participant 2"`, `"Participant 3"` regardless of the
inputs. -/
theorem C3_witness :
    ((runFilterTexts ["a@b.com", "Contact c@d.fr today"] defaultFilter).2.counters.email
      = defaultFilter.counters.email
        + ((["a@b.com", "Contact c@d.fr today"].map emailMatchCount).sum))
    ∧ (["a@b.com", "Contact c@d.fr today"].map emailMatchCount).sum = 2
    ∧ (runAnonymizeNames ["Alice", "Bob", "Dr. X"] defaultFilter).1 =
        (List.range 3).map (fun j => "Participant " ++ toString (defaultFilter.counters.name + j + 1))
    ∧ (List.range 3).map
        (fun j => "Participant " ++ toString (defaultFilter.counters.name + j + 1)) =
        ["Participant 1", "Participant 2", "Participant 3"] :=
  ⟨C3_counters_persist.2.2.1 ["a@b.com", "Contact c@d.fr today"] defaultFilter rfl rfl,
   by decide,
   (C3_counters_persist.2.2.2 ["Alice", "Bob", "Dr. X"] defaultFilter rfl rfl
     (by intro n hn; fin_cases hn <;> decide)).1,
   by decide⟩

/-- C5: the disambiguation guard of the phone passes.  Conjuncts 1-3: every
candidate match of the three phone patterns consists solely of digits,
parentheses, `+` and separators, so it never contains a hexadecimal letter
or a colon (the guard can therefore never reject a real candidate).
Conjunct 4: hence every candidate span found by a phone pass passes the
guard test `m.any hexOrColon = false`.  Conjunct 5: `filterPhoneNumbers`
renders each pass with `guardedRender`/`acceptedCount`: a span containing a
hexadecimal letter or colon would be left unchanged in the output and would
not move the phone counter, and every accepted span is replaced by
`[PHONE_<n>]` numbered consecutively from the shared phone counter. -/
theorem C5_phone_guard :
    (∀ (prev : Option Char) (s : List Char) (n : Nat), matchPhone1 prev s = some n →
      1 ≤ n ∧ (s.take n).all (fun c => !hexOrColon c) = true)
    ∧ (∀ (prev : Option Char) (s : List Char) (n : Nat), matchPhone2 prev s = some n →
      1 ≤ n ∧ (s.take n).all (fun c => !hexOrColon c) = true)
    ∧ (∀ (prev : Option Char) (s : List Char) (n : Nat), matchPhone3 prev s = some n →
      1 ≤ n ∧ (s.take n).all (fun c => !hexOrColon c) = true)
    ∧ (∀ (prev : Option Char) (s m : List Char),
        (Piece.mat m ∈ scanPieces matchPhone1 prev s
          ∨ Piece.mat m ∈ scanPieces matchPhone2 prev s
          ∨ Piece.mat m ∈ scanPieces matchPhone3 prev s) →
        m.any hexOrColon = false)
    ∧ (∀ (text : String) (σ : PIIFilter),
        filterPhoneNumbers text σ =
          (let p1 := scanPieces matchPhone1 none text.data
           let t1 := guardedRender σ.counters.phone p1
           let n1 := σ.counters.phone + acceptedCount p1
           let p2 := scanPieces matchPhone2 none t1
           let t2 := guardedRender n1 p2
           let n2 := n1 + acceptedCount p2
           let p3 := scanPieces matchPhone3 none t2
           let t3 := guardedRender n2 p3
           (String.mk t3,
            { σ with counters := { σ.counters with phone := n2 + acceptedCount p3 } }))) := by
  have hmain : ∀ (M : Option Char → List Char → Option Nat),
      (∀ (prev : Option Char) (s : List Char) (n : Nat), M prev s = some n →
        1 ≤ n ∧ (s.take n).all (fun c => !hexOrColon c) = true) →
      ∀ (prev : Option Char) (s m : List Char), Piece.mat m ∈ scanPieces M prev s →
      m.any hexOrColon = false := by
    intro M hspec prev s m hm
    obtain ⟨p, t, n, hM, hmt⟩ := scanPieces_mat M prev s m hm
    obtain ⟨h1, hall⟩ := hspec p t n hM
    have hmax : max n 1 = n := by omega
    rw [hmt, hmax]
    rw [List.all_eq_true] at hall
    rw [List.any_eq_false]
    intro x hx
    have := hall x hx
    simpa using this
  refine ⟨matchPhone1_spec, matchPhone2_spec, matchPhone3_spec, ?_, ?_⟩
  · intro prev s m hm
    rcases hm with hm | hm | hm
    · exact hmain matchPhone1 matchPhone1_spec prev s m hm
    · exact hmain matchPhone2 matchPhone2_spec prev s m hm
    · exact hmain matchPhone3 matchPhone3_spec prev s m hm
  · intro text σ
    simp only [filterPhoneNumbers, renderPieces_phoneRepl]

/-- C5 witness: a concrete accepted candidate and a concrete run of the
phone passes. -/
theorem C5_witness :
    matchPhone1 none ("555-123-4567".data) = some 12
    ∧ (1 ≤ 12 ∧ (("555-123-4567".data).take 12).all (fun c => !hexOrColon c) = true)
    ∧ filterPhoneNumbers "at 555-123-4567!" defaultFilter =
      (let p1 := scanPieces matchPhone1 none ("at 555-123-4567!".data)
       let t1 := guardedRender defaultFilter.counters.phone p1
       let n1 := defaultFilter.counters.phone + acceptedCount p1
       let p2 := scanPieces matchPhone2 none t1
       let t2 := guardedRender n1 p2
       let n2 := n1 + acceptedCount p2
       let p3 := scanPieces matchPhone3 none t2
       let t3 := guardedRender n2 p3
       (String.mk t3,
        { defaultFilter with counters :=
            { defaultFilter.counters with phone := n2 + acceptedCount p3 } })) :=
  ⟨by decide,
   C5_phone_guard.1 none ("555-123-4567".data) 12 (by decide),
   C5_phone_guard.2.2.2.2 "at 555-123-4567!" defaultFilter⟩

/-! ## Lemmas for the URL-parameter scrubbing (C6) -/

/-- Rendering a match-free scan reproduces the input. -/
theorem renderPure_lits (repl : List Char → List Char) :
    ∀ (l : List Char), renderPure repl (l.map Piece.lit) = l := by
  intro l
  induction l with
  | nil => rfl
  | cons c cs ih => simp [renderPure, ih]

theorem scanPiecesF_nil (M : Option Char → List Char → Option Nat)
    (fuel : Nat) (prev : Option Char) : scanPiecesF M fuel prev [] = [] := by
  cases fuel <;> rfl

/-- A pass whose matcher fails on every suffix copies the input verbatim. -/
theorem scanPieces_no_match (M : Option Char → List Char → Option Nat) :
    ∀ (s : List Char) (prev : Option Char), (∀ p t, t <:+ s → M p t = none) →
    scanPieces M prev s = s.map Piece.lit := by
  intro s
  induction s with
  | nil => intro prev _; rfl
  | cons c cs ih =>
    intro prev h
    have hc : M prev (c :: cs) = none := h prev (c :: cs) (List.suffix_refl _)
    simp only [scanPieces, List.length_cons] at *
    rw [scanPiecesF, hc]
    simp only [List.map_cons, List.cons.injEq, true_and]
    exact ih (some c) (fun p t ht => h p t (ht.trans (List.suffix_cons c cs)))

/-- A matcher that consumes the whole input at position 0 yields a single
matched span. -/
theorem scanPieces_single (M : Option Char → List Char → Option Nat)
    (c : Char) (cs : List Char) (h : M none (c :: cs) = some (cs.length + 1)) :
    scanPieces M none (c :: cs) = [Piece.mat (c :: cs)] := by
  have hmax : max (cs.length + 1) 1 = cs.length + 1 := by omega
  have htake : (c :: cs).take (cs.length + 1) = c :: cs := by
    rw [show cs.length + 1 = (c :: cs).length from rfl]
    exact List.take_length _
  have hdrop : (c :: cs).drop (cs.length + 1) = [] := by
    rw [show cs.length + 1 = (c :: cs).length from rfl]
    exact List.drop_length _
  simp only [scanPieces, List.length_cons]
  rw [scanPiecesF, h]
  simp only [hmax, htake, hdrop, scanPiecesF_nil]

theorem takeWhile_all {p : Char → Bool} :
    ∀ (l : List Char), (∀ c ∈ l, p c = true) → l.takeWhile p = l := by
  intro l
  induction l with
  | nil => intro _; rfl
  | cons c cs ih =>
    intro h
    rw [List.takeWhile_cons, if_pos (h c (by simp))]
    simp [ih (fun x hx => h x (by simp [hx]))]

theorem takeWhile_all_stop {p : Char → Bool} :
    ∀ (l : List Char) (c0 : Char) (r : List Char), (∀ c ∈ l, p c = true) → p c0 = false →
    (l ++ c0 :: r).takeWhile p = l := by
  intro l
  induction l with
  | nil =>
    intro c0 r _ h0
    simp [List.takeWhile_cons, h0]
  | cons c cs ih =>
    intro c0 r h h0
    rw [List.cons_append, List.takeWhile_cons, if_pos (h c (by simp))]
    simp [ih c0 r (fun x hx => h x (by simp [hx])) h0]

theorem startsWithList_append (p r : List Char) : startsWithList p (p ++ r) = true :=
  (startsWithList_iff p (p ++ r)).mpr (List.prefix_append p r)

/-- The head of a (nonempty) suffix is an element. -/
theorem head_mem_of_suffix {c : Char} {ct l : List Char} (h : (c :: ct) <:+ l) : c ∈ l := by
  obtain ⟨pre, hp⟩ := h
  rw [← hp]
  exact List.mem_append_right _ (by simp)

/-- A parameter name whose literal matches at the current position consumes
the name, the `=`, and the maximal nonempty value run. -/
theorem matchParamName_hit (nm : String) (rest : List String) (v : List Char)
    (hv : v ≠ []) (hval : ∀ c ∈ v, isValChar c = true) :
    matchParamName (nm.data ++ '=' :: v) (nm :: rest) =
      some (1 + (nm.data.length + 1) + v.length) := by
  have hassoc : nm.data ++ '=' :: v = (nm.data ++ ['=']) ++ v := by simp
  rw [matchParamName]
  simp only [hassoc, startsWithList_append, if_true, List.drop_left,
    takeWhile_all v hval]
  rw [if_neg (by simpa using hv)]
  simp

/-- A parameter name whose literal does not match is skipped. -/
theorem matchParamName_tail (cs : List Char) (nm : String) (rest : List String)
    (hfail : startsWithList (nm.data ++ ['=']) cs = false) :
    matchParamName cs (nm :: rest) = matchParamName cs rest := by
  rw [matchParamName]
  simp [hfail]

/-- C6: whenever `filterText` runs at all (enabled filter, truthy input) the
URL-parameter scrubbing runs last, regardless of the email/phone toggles,
and moves no counter (with both toggles off the state comes back exactly
`σ`, conjunct 1; in general the state is whatever the toggled email/phone
passes produced, conjunct 2 — `filterSensitiveUrls` does not touch the
state at all).  Conjuncts 3 and 4: the value portion of an `email=` and of
a `user_id=`/`userId=`/`uid=` query parameter is replaced by the literal
`[REDACTED]`, preserving the `?`/`&` delimiter and the parameter name. -/
theorem C6_url_scrub :
    (∀ (s : String) (σ : PIIFilter), σ.enabled = true → σ.anonymizeEmails = false →
      σ.anonymizePhone = false → s ≠ "" →
      filterText s σ = (filterSensitiveUrls s, σ))
    ∧ (∀ (s : String) (σ : PIIFilter), σ.enabled = true → s ≠ "" →
      filterText s σ =
        (let e := if σ.anonymizeEmails then filterEmails s σ else (s, σ)
         let p := if e.2.anonymizePhone then filterPhoneNumbers e.1 e.2 else e
         (filterSensitiveUrls p.1, p.2)))
    ∧ (∀ (d : Char) (v : List Char), (d = '?' ∨ d = '&') → v ≠ [] →
      (∀ c ∈ v, isValChar c = true) →
      filterSensitiveUrls (String.mk (d :: ("email".data ++ '=' :: v)))
        = String.mk (d :: ("email".data ++ "=[REDACTED]".data)))
    ∧ (∀ (d : Char) (nm : String) (v : List Char), (d = '?' ∨ d = '&') →
      (nm = "user_id" ∨ nm = "userId" ∨ nm = "uid") → v ≠ [] →
      (∀ c ∈ v, isValChar c = true ∧ (c == '?') = false) →
      filterSensitiveUrls (String.mk (d :: (nm.data ++ '=' :: v)))
        = String.mk (d :: (nm.data ++ "=[REDACTED]".data))) := by
  refine ⟨?_, ?_, ?_, ?_⟩
  · intro s σ hen hae hap hs
    have hs' : (s == "") = false := by simpa using hs
    simp [filterText, hen, hae, hap, hs']
  · intro s σ hen hs
    have hs' : (s == "") = false := by simpa using hs
    simp only [filterText, hen, hs', Bool.not_true, Bool.or_self, Bool.false_or]
    rcases σ.anonymizeEmails with _ | _ <;> simp
  · intro d v hd hv hval
    have hdq : (d == '?' || d == '&') = true := by rcases hd with rfl | rfl <;> rfl
    have hdm : (!(d == '=')) = true := by rcases hd with rfl | rfl <;> rfl
    have hm : matchUrlEmail none (d :: ("email".data ++ '=' :: v)) =
        some (("email".data ++ '=' :: v).length + 1) := by
      rw [matchUrlEmail]
      simp only [hdq, if_true]
      rw [matchParamName_hit "email" [] v hv hval]
      simp only [Option.some.injEq, List.length_append, List.length_cons]
      simp
      omega
    simp only [filterSensitiveUrls]
    rw [scanPieces_single _ _ _ hm]
    simp only [renderPure, List.append_nil, urlRepl]
    have htw : (d :: ("email".data ++ '=' :: v)).takeWhile (fun c => !(c == '=')) =
        d :: "email".data := by
      rw [List.takeWhile_cons, if_pos hdm]
      rw [takeWhile_all_stop "email".data '=' v (by decide) (by decide)]
    rw [htw]
    have hout : (d :: "email".data) ++ ("=[REDACTED]".data) =
        d :: ("email".data ++ "=[REDACTED]".data) := by simp
    rw [hout]
    have h2 : ∀ p t, t <:+ (d :: ("email".data ++ "=[REDACTED]".data)) →
        matchUrlUser p t = none := by
      intro p t hsuf
      rcases List.suffix_cons_iff.mp hsuf with rfl | hsuf
      · rw [matchUrlUser]
        simp only [hdq, if_true]
        rw [matchParamName_tail _ _ _ (by decide), matchParamName_tail _ _ _ (by decide),
          matchParamName_tail _ _ _ (by decide)]
        rfl
      · cases t with
        | nil => rfl
        | cons c ct =>
          have hc : c ∈ "email".data ++ "=[REDACTED]".data := head_mem_of_suffix hsuf
          have hcq : (c == '?' || c == '&') = false := by
            have : c ∈ ("email=[REDACTED]".data) := by simpa using hc
            fin_cases this <;> rfl
          rw [matchUrlUser]
          simp [hcq]
    rw [scanPieces_no_match _ _ _ h2, renderPure_lits]
  · intro d nm v hd hnm hv hval
    have hdq : (d == '?' || d == '&') = true := by rcases hd with rfl | rfl <;> rfl
    have hdm : (!(d == '=')) = true := by rcases hd with rfl | rfl <;> rfl
    have hval1 : ∀ c ∈ v, isValChar c = true := fun c hc => (hval c hc).1
    have hlen : ∀ nmd : List Char, (1 + (nmd.length + 1) + v.length) =
        ((nmd ++ '=' :: v).length + 1) := by
      intro nmd
      simp
      omega
    have hpass1 : ∀ p t, t <:+ (d :: (nm.data ++ '=' :: v)) → matchUrlEmail p t = none := by
      intro p t hsuf
      rcases List.suffix_cons_iff.mp hsuf with rfl | hsuf
      · rw [matchUrlEmail]
        simp only [hdq, if_true]
        rcases hnm with rfl | rfl | rfl <;>
          (rw [matchParamName_tail _ _ _ (by rfl)]; rfl)
      · cases t with
        | nil => rfl
        | cons c ct =>
          have hc : c ∈ nm.data ++ '=' :: v := head_mem_of_suffix hsuf
          have hcq : (c == '?' || c == '&') = false := by
            rcases List.mem_append.mp hc with hc | hc
            · rcases hnm with rfl | rfl | rfl <;> (fin_cases hc <;> rfl)
            · rcases List.mem_cons.mp hc with rfl | hc
              · rfl
              · obtain ⟨hv1, hv2⟩ := hval c hc
                have hv3 : (c == '&') = false := by
                  rcases hq : (c == '&') with _ | _
                  · rfl
                  · rw [isValChar, hq] at hv1
                    simp at hv1
                rw [hv2, hv3]
                rfl
          rw [matchUrlEmail]
          simp [hcq]
    simp only [filterSensitiveUrls]
    rw [scanPieces_no_match _ _ _ hpass1, renderPure_lits]
    have hm2 : matchUrlUser none (d :: (nm.data ++ '=' :: v)) =
        some ((nm.data ++ '=' :: v).length + 1) := by
      rw [matchUrlUser]
      simp only [hdq, if_true]
      rcases hnm with rfl | rfl | rfl
      · rw [matchParamName_hit _ _ v hv hval1, hlen]
      · rw [matchParamName_tail _ _ _ (by rfl), matchParamName_hit _ _ v hv hval1, hlen]
      · rw [matchParamName_tail _ _ _ (by rfl), matchParamName_tail _ _ _ (by rfl),
          matchParamName_hit _ _ v hv hval1, hlen]
    rw [scanPieces_single _ _ _ hm2]
    simp only [renderPure, List.append_nil, urlRepl]
    have htw : (d :: (nm.data ++ '=' :: v)).takeWhile (fun c => !(c == '=')) =
        d :: nm.data := by
      rw [List.takeWhile_cons, if_pos hdm]
      rw [takeWhile_all_stop nm.data '=' v ?_ (by decide)]
      rcases hnm with rfl | rfl | rfl <;> decide
    rw [htw]
    have hout : (d :: nm.data) ++ ("=[REDACTED]".data) =
        d :: (nm.data ++ "=[REDACTED]".data) := by simp
    rw [hout]

/-- C6 witness: concrete scrubs of an `email=` and a `uid=` parameter, and a
concrete enabled filter with both toggles off. -/
theorem C6_witness :
    filterText "?email=bob@x.io" { defaultFilter with anonymizeEmails := false, anonymizePhone := false }
      = (filterSensitiveUrls "?email=bob@x.io",
         { defaultFilter with anonymizeEmails := false, anonymizePhone := false })
    ∧ filterSensitiveUrls (String.mk ('?' :: ("email".data ++ '=' :: "bob@x.io".data)))
        = String.mk ('?' :: ("email".data ++ "=[REDACTED]".data))
    ∧ filterSensitiveUrls (String.mk ('&' :: ("uid".data ++ '=' :: "12345".data)))
        = String.mk ('&' :: ("uid".data ++ "=[REDACTED]".data)) :=
  ⟨C6_url_scrub.1 "?email=bob@x.io"
      { defaultFilter with anonymizeEmails := false, anonymizePhone := false }
      rfl rfl rfl (by decide),
   C6_url_scrub.2.2.1 '?' ("bob@x.io".data) (Or.inl rfl) (by decide) (by decide),
   C6_url_scrub.2.2.2 '&' "uid" ("12345".data) (Or.inr rfl) (Or.inr (Or.inr rfl))
      (by decide) (by decide)⟩

end PII
